import Mathlib

/-!
Verification of the partition-balancing core of `pykafka`'s
`BalancedConsumer` (`pykafka/balancedconsumer.py`).

The development shallowly embeds the relevant code:

* Python `str` values are modelled as `List Char`, so that Python's
  lexicographic string comparison is the lexicographic order on
  character lists (identical on the ASCII ids and keys involved) and
  stays kernel-computable.
* `_decide_partitions` becomes the pure function `decide_partitions`.
* `_rebalance` / `stop` / `_add_partitions` become a state-passing
  interpreter producing an explicit event trace, with the coordinator
  (ZooKeeper) responses supplied by an environment record.
* `start` and `_raise_worker_exceptions` get analogous small models.
-/

set_option autoImplicit false

namespace PyKafka

/-- A Python string, modelled as its list of characters.  Python compares
`str` lexicographically by code point, which is the lexicographic order on
`List Char`. -/
abbrev PyStr := List Char

/-- A topic partition: `pykafka.partition.Partition` as used by
`balancedconsumer.py` (fields `topic.name`, `leader.id`, `id`). -/
structure Partition where
  topic : PyStr
  leader : Nat
  id : Nat
deriving DecidableEq, Repr

/-- Python `str(n)` for a natural number: its decimal digits. -/
def natStr (n : Nat) : PyStr := Nat.toDigits 10 n

/-- The sort key of `_decide_partitions`:
`p_to_str = lambda p: '-'.join([str(p.topic.name), str(p.leader.id), str(p.id)])`. -/
def p_to_str (p : Partition) : PyStr :=
  p.topic ++ ['-'] ++ natStr p.leader ++ ['-'] ++ natStr p.id

/-- Comparison of partitions by their string key — the order used by
`sorted(all_parts, key=p_to_str)`. -/
def partLe (a b : Partition) : Prop := p_to_str a ≤ p_to_str b

instance : DecidableRel partLe := fun a b => by
  unfold partLe
  infer_instance

/-- `start = parts_per_consumer * idx + min(idx, remainder_ppc)` from
`_decide_partitions`, with `n` the number of partitions and `k` the number
of participants. -/
def sliceStart (n k idx : Nat) : Nat := n / k * idx + min idx (n % k)

/-- `num_parts = parts_per_consumer + (0 if (idx + 1 > remainder_ppc) else 1)`
from `_decide_partitions`. -/
def sliceCount (n k idx : Nat) : Nat := n / k + (if n % k < idx + 1 then 0 else 1)

theorem sliceStart_zero (n k : Nat) : sliceStart n k 0 = 0 := by
  simp [sliceStart]

theorem sliceStart_succ (n k i : Nat) :
    sliceStart n k (i + 1) = sliceStart n k i + sliceCount n k i := by
  simp only [sliceStart, sliceCount, Nat.mul_succ]
  rcases Nat.lt_or_ge (n % k) (i + 1) with h | h
  · rw [if_pos h]
    omega
  · rw [if_neg (by omega)]
    omega

theorem sliceStart_mono (n k : Nat) {i j : Nat} (h : i ≤ j) :
    sliceStart n k i ≤ sliceStart n k j := by
  simp only [sliceStart]
  have h1 : n / k * i ≤ n / k * j := Nat.mul_le_mul_left _ h
  omega

theorem sliceStart_top (n k : Nat) (hk : 0 < k) : sliceStart n k k = n := by
  have h1 : n % k < k := Nat.mod_lt _ hk
  have h2 : min k (n % k) = n % k := by omega
  have h3 : n / k * k + n % k = n := by
    rw [Nat.mul_comm]
    exact Nat.div_add_mod n k
  simp only [sliceStart, h2, h3]

theorem sliceCount_eq (n k i : Nat) :
    sliceCount n k i = n / k + (if i < n % k then 1 else 0) := by
  unfold sliceCount
  rcases Nat.lt_or_ge i (n % k) with h | h
  · rw [if_neg (by omega), if_pos h]
  · rw [if_pos (by omega), if_neg (by omega)]

/-- The contiguous slice `all_parts[start : start + num_parts]` that
`itertools.islice(all_parts, start, start + num_parts)` extracts for the
participant at index `i` out of `k`. -/
def assignSlice (l : List Partition) (k i : Nat) : List Partition :=
  (l.drop (sliceStart l.length k i)).take (sliceCount l.length k i)

theorem take_sliceStart_succ (l : List Partition) (k i : Nat) :
    l.take (sliceStart l.length k (i + 1)) =
      l.take (sliceStart l.length k i) ++ assignSlice l k i := by
  rw [sliceStart_succ, List.take_add]
  rfl

theorem mem_of_mem_take_sliceStart (l : List Partition) (k : Nat) :
    ∀ j x, x ∈ l.take (sliceStart l.length k j) →
      ∃ i, i < j ∧ x ∈ assignSlice l k i := by
  intro j
  induction j with
  | zero =>
    intro x hx
    rw [sliceStart_zero] at hx
    simp at hx
  | succ j ih =>
    intro x hx
    rw [take_sliceStart_succ] at hx
    rcases List.mem_append.mp hx with h | h
    · obtain ⟨i, hi, hmem⟩ := ih x h
      exact ⟨i, Nat.lt_succ_of_lt hi, hmem⟩
    · exact ⟨j, Nat.lt_succ_self j, h⟩

theorem assignSlice_cover (l : List Partition) (k : Nat) (hk : 0 < k) (x : Partition) :
    x ∈ l ↔ ∃ i, i < k ∧ x ∈ assignSlice l k i := by
  constructor
  · intro hx
    apply mem_of_mem_take_sliceStart l k k
    rw [sliceStart_top _ _ hk, List.take_length]
    exact hx
  · rintro ⟨i, _, hmem⟩
    exact List.drop_subset _ l (List.take_subset _ _ hmem)

theorem take_subset_take (l : List Partition) {m n : Nat} (h : m ≤ n) :
    l.take m ⊆ l.take n := by
  intro x hx
  have h1 : (l.take n).take m = l.take m := by
    rw [List.take_take, Nat.min_eq_left h]
  rw [← h1] at hx
  exact List.take_subset _ _ hx

theorem assignSlice_subset_take (l : List Partition) (k i : Nat) :
    assignSlice l k i ⊆ l.take (sliceStart l.length k (i + 1)) := by
  rw [take_sliceStart_succ]
  exact fun x hx => List.mem_append.mpr (Or.inr hx)

theorem nodup_take_disjoint_drop (l : List Partition) (n : Nat) (h : l.Nodup) :
    ∀ x, x ∈ l.take n → x ∈ l.drop n → False := by
  have h2 : (l.take n ++ l.drop n).Nodup := by
    rw [List.take_append_drop]
    exact h
  have h3 := (List.nodup_append.mp h2).2.2
  exact fun x hx hy => h3 hx hy

theorem assignSlice_disjoint (l : List Partition) (k : Nat) (h : l.Nodup) {i j : Nat}
    (hij : i < j) : ∀ x, x ∈ assignSlice l k i → x ∈ assignSlice l k j → False := by
  intro x hxi hxj
  have h1 : x ∈ l.take (sliceStart l.length k j) :=
    take_subset_take l (sliceStart_mono _ _ hij) (assignSlice_subset_take l k i hxi)
  have h2 : x ∈ l.drop (sliceStart l.length k j) := List.take_subset _ _ hxj
  exact nodup_take_disjoint_drop l _ h x h1 h2

/-- `BalancedConsumer._decide_partitions`.  Freezes and sorts the topic's
partitions by string key, sorts the participants, finds this consumer's
index among them, and takes the contiguous slice
`all_parts[start : start + num_parts]`.  (On an empty participant list or
an absent `consumer_id` the Python original raises; the claims below only
use it where `participants` is non-empty and contains `consumer_id`.) -/
def decide_partitions (consumer_id : PyStr) (topicParts : List Partition)
    (participants : List PyStr) : List Partition :=
  let all_parts := List.insertionSort partLe topicParts
  let ps := List.insertionSort (· ≤ ·) participants
  let idx := ps.indexOf consumer_id
  assignSlice all_parts ps.length idx

theorem decide_partitions_def (cid : PyStr) (T : List Partition) (P : List PyStr) :
    decide_partitions cid T P =
      assignSlice (List.insertionSort partLe T)
        (List.insertionSort (· ≤ ·) P).length
        ((List.insertionSort (· ≤ ·) P).indexOf cid) := rfl

/-- Concrete partitions `p0 .. p4` of a one-topic cluster, whose string
keys `t-0-0 .. t-0-4` are already in sorted order. -/
def xp (i : Nat) : Partition := ⟨['t'], 0, i⟩

/-- The sorted partition list `T = [p0 .. p4]` of the spec's scenario 2. -/
def exT5 : List Partition := [xp 0, xp 1, xp 2, xp 3, xp 4]

/-- The sorted participant list `P = ["a","b","c"]` of the spec's scenario 2. -/
def exP3 : List PyStr := [['a'], ['b'], ['c']]

theorem pystr_beq_eq (a b : PyStr) : (a == b) = decide (a = b) := by
  by_cases h : a = b <;> simp [h]

theorem indexOf_inst_eq (a : PyStr) (l : List PyStr) :
    l.indexOf a = @List.indexOf PyStr instBEqOfDecidableEq a l := by
  unfold List.indexOf
  congr 1
  funext x
  exact pystr_beq_eq x a

/-- C1: for every topic partition list `T` (distinct partitions, as the
values of the topic's id-keyed partition dict are) and every non-empty
list `P` of distinct member ids, the assignments `_decide_partitions`
computes are pairwise disjoint across distinct members of `P`, and their
union over all members of `P` is exactly `T`. -/
theorem decide_partitions_disjoint_union (T : List Partition) (P : List PyStr)
    (hT : T.Nodup) (hP : P.Nodup) (hne : P ≠ []) :
    (∀ m, m ∈ P → ∀ m2, m2 ∈ P → m ≠ m2 →
       ∀ p, p ∈ decide_partitions m T P → p ∉ decide_partitions m2 T P)
    ∧ (∀ p, p ∈ T ↔ ∃ m, m ∈ P ∧ p ∈ decide_partitions m T P) := by
  have hlperm : List.Perm (List.insertionSort partLe T) T :=
    List.perm_insertionSort _ _
  have hpsperm : List.Perm (List.insertionSort (· ≤ ·) P) P :=
    List.perm_insertionSort _ _
  have hlnd : (List.insertionSort partLe T).Nodup := hlperm.nodup_iff.mpr hT
  have hpsnd : (List.insertionSort (· ≤ ·) P).Nodup := hpsperm.nodup_iff.mpr hP
  have hk : 0 < (List.insertionSort (· ≤ ·) P).length := by
    rw [hpsperm.length_eq]
    exact List.length_pos.mpr hne
  have hdef : ∀ (m : PyStr), decide_partitions m T P =
      assignSlice (List.insertionSort partLe T)
        (List.insertionSort (· ≤ ·) P).length
        (@List.indexOf PyStr instBEqOfDecidableEq m (List.insertionSort (· ≤ ·) P)) := by
    intro m
    rw [decide_partitions_def, indexOf_inst_eq]
  constructor
  · intro m hm m2 hm2 hne2 p hp hp2
    have hmi : @List.indexOf PyStr instBEqOfDecidableEq m (List.insertionSort (· ≤ ·) P) <
        (List.insertionSort (· ≤ ·) P).length :=
      List.indexOf_lt_length.mpr (hpsperm.mem_iff.mpr hm)
    have hmi2 : @List.indexOf PyStr instBEqOfDecidableEq m2 (List.insertionSort (· ≤ ·) P) <
        (List.insertionSort (· ≤ ·) P).length :=
      List.indexOf_lt_length.mpr (hpsperm.mem_iff.mpr hm2)
    have hidx : @List.indexOf PyStr instBEqOfDecidableEq m (List.insertionSort (· ≤ ·) P) ≠
        @List.indexOf PyStr instBEqOfDecidableEq m2 (List.insertionSort (· ≤ ·) P) := by
      intro he
      apply hne2
      have g1 := List.indexOf_get (a := m) (l := List.insertionSort (· ≤ ·) P) hmi
      have g2 := List.indexOf_get (a := m2) (l := List.insertionSort (· ≤ ·) P) hmi2
      rw [← g1, ← g2]
      congr 1
      exact Fin.ext he
    rw [hdef] at hp hp2
    rcases Nat.lt_or_ge
        (@List.indexOf PyStr instBEqOfDecidableEq m (List.insertionSort (· ≤ ·) P))
        (@List.indexOf PyStr instBEqOfDecidableEq m2 (List.insertionSort (· ≤ ·) P))
      with h | h
    · exact assignSlice_disjoint _ _ hlnd h p hp hp2
    · have h2 : @List.indexOf PyStr instBEqOfDecidableEq m2 (List.insertionSort (· ≤ ·) P) <
          @List.indexOf PyStr instBEqOfDecidableEq m (List.insertionSort (· ≤ ·) P) := by
        omega
      exact assignSlice_disjoint _ _ hlnd h2 p hp2 hp
  · intro p
    rw [← hlperm.mem_iff, assignSlice_cover _ _ hk p]
    constructor
    · rintro ⟨i, hik, hmem⟩
      refine ⟨(List.insertionSort (· ≤ ·) P).get ⟨i, hik⟩, ?_, ?_⟩
      · exact hpsperm.mem_iff.mp (List.get_mem _ _ _)
      · rw [hdef]
        have hix : @List.indexOf PyStr instBEqOfDecidableEq
            ((List.insertionSort (· ≤ ·) P).get ⟨i, hik⟩)
            (List.insertionSort (· ≤ ·) P) = i := by
          have h5 := List.indexOf_getElem hpsnd i hik
          simpa [List.get_eq_getElem] using h5
        rw [hix]
        exact hmem
    · rintro ⟨m, hm, hmem⟩
      rw [hdef] at hmem
      exact ⟨@List.indexOf PyStr instBEqOfDecidableEq m (List.insertionSort (· ≤ ·) P),
        List.indexOf_lt_length.mpr (hpsperm.mem_iff.mpr hm), hmem⟩

/-- Witness for C1 at `T = [p0, p1]`, `P = ["a", "b"]`: member `"a"` holds
`p0`, member `"b"` does not, and `p0` is covered by some member. -/
theorem decide_partitions_disjoint_union_witness :
    xp 0 ∉ decide_partitions ['b'] [xp 0, xp 1] [['a'], ['b']]
    ∧ (xp 0 ∈ [xp 0, xp 1] ↔
        ∃ m, m ∈ [['a'], ['b']] ∧ xp 0 ∈ decide_partitions m [xp 0, xp 1] [['a'], ['b']]) := by
  have h := decide_partitions_disjoint_union [xp 0, xp 1] [['a'], ['b']]
    (by decide) (by decide) (by decide)
  exact ⟨h.1 ['a'] (by decide) ['b'] (by decide) (by decide) (xp 0) (by decide),
    h.2 (xp 0)⟩

/-- C2: with `T` sorted by the string key `topic-leader-partition` and `P`
sorted lexicographically, `_decide_partitions` returns exactly the
contiguous slice `T[start : start + count]` with
`start = base * idx + min(idx, rem)` and
`count = base + (1 if idx < rem else 0)` for `idx` the position of self in
`P`, `base = |T| div |P|`, `rem = |T| mod |P|`; in particular for
`P = ["a","b","c"]` and `T = [p0..p4]`, `a` gets `[p0, p1]`, `b` gets
`[p2, p3]` and `c` gets `[p4]`. -/
theorem decide_partitions_contiguous_slice (cid : PyStr) (T : List Partition)
    (P : List PyStr) (hT : T.Sorted partLe) (hP : P.Sorted (· ≤ ·)) :
    decide_partitions cid T P =
      (T.drop (T.length / P.length * P.indexOf cid
          + min (P.indexOf cid) (T.length % P.length))).take
        (T.length / P.length
          + if P.indexOf cid < T.length % P.length then 1 else 0)
    ∧ decide_partitions ['a'] exT5 exP3 = [xp 0, xp 1]
    ∧ decide_partitions ['b'] exT5 exP3 = [xp 2, xp 3]
    ∧ decide_partitions ['c'] exT5 exP3 = [xp 4] := by
  refine ⟨?_, by decide, by decide, by decide⟩
  rw [decide_partitions_def, hT.insertionSort_eq, hP.insertionSort_eq]
  simp only [assignSlice, sliceStart, sliceCount_eq]

/-- Witness for C2 at the concrete sorted inputs of the spec's scenario 2. -/
theorem decide_partitions_contiguous_slice_witness :
    decide_partitions ['a'] exT5 exP3 =
      (exT5.drop (exT5.length / exP3.length * exP3.indexOf ['a']
          + min (exP3.indexOf ['a']) (exT5.length % exP3.length))).take
        (exT5.length / exP3.length
          + if exP3.indexOf ['a'] < exT5.length % exP3.length then 1 else 0) :=
  (decide_partitions_contiguous_slice ['a'] exT5 exP3 (by decide) (by decide)).1

/-- C9: `_decide_partitions` is invariant under permutation of the
participant list, because it sorts the participants before indexing. -/
theorem decide_partitions_perm_invariant (cid : PyStr) (T : List Partition)
    {P Q : List PyStr} (h : P.Perm Q) :
    decide_partitions cid T P = decide_partitions cid T Q := by
  have hs : List.insertionSort (· ≤ ·) P = List.insertionSort (· ≤ ·) Q :=
    List.eq_of_perm_of_sorted
      ((List.perm_insertionSort _ P).trans (h.trans (List.perm_insertionSort _ Q).symm))
      (List.sorted_insertionSort _ P) (List.sorted_insertionSort _ Q)
  rw [decide_partitions_def, decide_partitions_def, hs]

/-- Witness for C9: reordering `["b","a"]` to `["a","b"]` does not change
the assignment of member `"a"`. -/
theorem decide_partitions_perm_invariant_witness :
    decide_partitions ['a'] exT5 [['b'], ['a']] =
      decide_partitions ['a'] exT5 [['a'], ['b']] :=
  decide_partitions_perm_invariant ['a'] exT5 (by decide)

/-!
A state-passing model of `_rebalance` (together with the pieces of `stop`,
`_add_self`, `_add_partitions`, `_remove_partitions` and
`_get_held_partitions` it drives).  Every externally visible action is
recorded in an event trace; the coordinator's responses (the registered
participants, which claims collide with a peer's ephemeral node, whether
the offset commit raises) are supplied by an environment record.
-/

/-- Errors that can escape `_rebalance`. -/
inductive RbErr
  | consumerStopped
  | partitionOwned (p : Partition)
  | commitError
  | capacityError
deriving DecidableEq, Repr

/-- Externally visible actions of `_rebalance` / `stop`, in order. -/
inductive Event
  | commit
  | lockAcq
  | lockRel
  | addSelf
  | removeSelf
  | removeOwned (p : Partition)
  | addOwned (p : Partition)
  | setupConsumer (ps : List Partition)
  | sleep (ms : Nat)
  | stopCall
deriving DecidableEq, Repr

/-- The consumer state the rebalancer reads and writes: the `_running`
flag, the inner consumer (`None` or its partition set) and this member's
ownership records in the coordinator (`_get_held_partitions`). -/
structure RbState where
  running : Bool
  consumer : Option (List Partition)
  zkOwned : List Partition
deriving DecidableEq, Repr

/-- `self._partitions`: the set of partitions internally held (empty when
there is no inner consumer). -/
def RbState.selfPartitions (st : RbState) : List Partition :=
  match st.consumer with
  | none => []
  | some ps => ps

/-- Coordinator-side inputs of one `_rebalance` call: the participant ids
registered under the group path (`_get_participants`), which partitions a
peer still owns at retry iteration `i` (causing `NodeExistsError` →
`PartitionOwnedError` in `_add_partitions`), whether `commit_offsets`
raises, and whether this consumer owns its zookeeper session. -/
structure RbEnv where
  participants : List PyStr
  peerOwned : Nat → Partition → Bool
  commitRaises : Bool
  ownsZookeeper : Bool

/-- `_add_partitions`: create an ephemeral ownership node for each
partition in turn; a `NodeExistsError` surfaces as `PartitionOwnedError`
for that partition, leaving the earlier nodes created.  Returns the
events, the updated set of owned records, and the offending partition if
one collided. -/
def addPartitionsGo (peer : Partition → Bool) :
    List Partition → List Partition → List Event × List Partition × Option Partition
  | owned, [] => ([], owned, none)
  | owned, p :: rest =>
    if peer p then ([], owned, some p)
    else
      let r := addPartitionsGo peer (owned ++ [p]) rest
      (Event.addOwned p :: r.1, r.2)

/-- `stop()`: sets `_running = False` under the rebalancing lock, stops
the inner consumer, then either closes the owned zookeeper session (which
releases every ephemeral ownership record) or explicitly removes the held
partitions and this consumer's registration node. -/
def stopModel (env : RbEnv) (st : RbState) : List Event × RbState :=
  if env.ownsZookeeper then
    ([Event.lockAcq, Event.lockRel], { st with running := false, zkOwned := [] })
  else
    ([Event.lockAcq, Event.lockRel]
       ++ st.zkOwned.map Event.removeOwned ++ [Event.removeSelf],
     { st with running := false, zkOwned := [] })

/-- The start of a retry iteration: `participants = self._get_participants()`,
and when `self._consumer_id not in participants` (expired session) the
re-registration `self._add_self()` (whose capacity check
`len(self._topic.partitions) <= len(participants)` raises a
`KafkaException`, modelled as the `none` outcome) followed by
`participants.append(self._consumer_id)`. -/
def participantsStep (cid : PyStr) (topicParts : List Partition) (env : RbEnv) :
    List Event × Option (List PyStr) :=
  if cid ∈ env.participants then ([], some env.participants)
  else if topicParts.length ≤ env.participants.length then ([], none)
  else ([Event.addSelf], some (env.participants ++ [cid]))

/-- The participant list each retry iteration ends up using. -/
def effParticipants (env : RbEnv) (cid : PyStr) : List PyStr :=
  if cid ∈ env.participants then env.participants else env.participants ++ [cid]

/-- Outcome of one iteration of the retry loop's `try` body, up to the
point where the `except PartitionOwnedError` handler decides whether to
retry. -/
inductive StepOut
  | capacity
  | emptyAssign (tr : List Event)
  | owned (tr : List Event) (st1 : RbState) (p : Partition)
  | ok (tr : List Event) (st1 : RbState)
deriving DecidableEq, Repr

/-- One iteration of the `try` body of `_rebalance`'s retry loop:
re-read (and possibly re-register) the participants, compute the new
assignment (`emptyAssign` when it is empty, which sets `should_stop`),
fetch the held partitions from the coordinator, remove
`current_zk_parts - new_partitions`, add `new_partitions - current_zk_parts`
(`owned` when a claim collides, i.e. `PartitionOwnedError`), and re-create
the internal consumer only if the assignment differs from
`self._partitions`. -/
def rebalanceStep (cid : PyStr) (topicParts : List Partition) (env : RbEnv)
    (i : Nat) (st : RbState) : StepOut :=
  match participantsStep cid topicParts env with
  | (_, none) => StepOut.capacity
  | (tr0, some participants) =>
    let newParts := decide_partitions cid topicParts participants
    if newParts.isEmpty then StepOut.emptyAssign tr0
    else
      let current := st.zkOwned
      let toRemove := current.filter fun p => !decide (p ∈ newParts)
      let removeTr := toRemove.map Event.removeOwned
      let owned1 := current.filter fun p => decide (p ∈ newParts)
      let toAdd := newParts.filter fun p => !decide (p ∈ current)
      match addPartitionsGo (env.peerOwned i) owned1 toAdd with
      | (addTr, owned2, some p) =>
        StepOut.owned (tr0 ++ removeTr ++ addTr) { st with zkOwned := owned2 } p
      | (addTr, owned2, none) =>
        let st1 : RbState := { st with zkOwned := owned2 }
        if (∀ p, p ∈ newParts → p ∈ st1.selfPartitions)
            ∧ (∀ p, p ∈ st1.selfPartitions → p ∈ newParts) then
          StepOut.ok (tr0 ++ removeTr ++ addTr) st1
        else
          StepOut.ok (tr0 ++ removeTr ++ addTr ++ [Event.setupConsumer newParts])
            { st1 with consumer := some newParts }

/-- The retry loop of `_rebalance` (`for i in range(self._rebalance_max_retries)`),
run over the remaining iteration indices.  A `PartitionOwnedError` on the
final iteration propagates, otherwise the loop sleeps `i * backoff` and
retries; a `KafkaException` from `_add_self`'s capacity check is not
caught and propagates at once.  Returns (events, state, `should_stop`,
escaped error). -/
def rebalanceLoop (cid : PyStr) (topicParts : List Partition)
    (maxRetries backoff : Nat) (env : RbEnv) :
    List Nat → RbState → List Event × RbState × Bool × Option RbErr
  | [], st => ([], st, false, none)
  | i :: rest, st =>
    match rebalanceStep cid topicParts env i st with
    | StepOut.capacity => ([], st, false, some RbErr.capacityError)
    | StepOut.emptyAssign tr => (tr, st, true, none)
    | StepOut.owned tr st1 p =>
      if i = maxRetries - 1 then (tr, st1, false, some (RbErr.partitionOwned p))
      else
        let r := rebalanceLoop cid topicParts maxRetries backoff env rest st1
        (tr ++ [Event.sleep (i * backoff)] ++ r.1, r.2)
    | StepOut.ok tr st1 => (tr, st1, false, none)

/-- The trace of `_rebalance`'s opening
`if self._consumer is not None: self.commit_offsets()`. -/
def commitTrace (st : RbState) : List Event :=
  if st.consumer.isSome then [Event.commit] else []

/-- `_rebalance`: commit the inner consumer's offsets if one exists (an
exception here propagates), then under the rebalancing lock check
`_running` and run the retry loop; after releasing the lock, call `stop()`
if the loop decided the assignment was empty. -/
def rebalance (cid : PyStr) (topicParts : List Partition)
    (maxRetries backoff : Nat) (env : RbEnv) (st : RbState) :
    List Event × RbState × Option RbErr :=
  if st.consumer.isSome && env.commitRaises then
    (commitTrace st, st, some RbErr.commitError)
  else if !st.running then
    (commitTrace st ++ [Event.lockAcq, Event.lockRel], st, some RbErr.consumerStopped)
  else
    match rebalanceLoop cid topicParts maxRetries backoff env
        (List.range maxRetries) st with
    | (tr, st2, _, some e) =>
      (commitTrace st ++ (Event.lockAcq :: (tr ++ [Event.lockRel])), st2, some e)
    | (tr, st2, shouldStop, none) =>
      if shouldStop then
        (commitTrace st ++ (Event.lockAcq :: (tr ++ ([Event.lockRel, Event.stopCall]
           ++ (stopModel env st2).1))), (stopModel env st2).2, none)
      else
        (commitTrace st ++ (Event.lockAcq :: (tr ++ [Event.lockRel])), st2, none)

theorem rebalance_eq_commitFail (cid : PyStr) (T : List Partition)
    (max b : Nat) (env : RbEnv) (st : RbState)
    (hsome : st.consumer.isSome = true) (hcr : env.commitRaises = true) :
    rebalance cid T max b env st = ([Event.commit], st, some RbErr.commitError) := by
  unfold rebalance
  rw [hsome, hcr]
  simp [commitTrace, hsome]

theorem rebalance_eq_notRunning (cid : PyStr) (T : List Partition)
    (max b : Nat) (env : RbEnv) (st : RbState)
    (h : (st.consumer.isSome && env.commitRaises) = false)
    (hr : st.running = false) :
    rebalance cid T max b env st =
      (commitTrace st ++ [Event.lockAcq, Event.lockRel], st,
       some RbErr.consumerStopped) := by
  unfold rebalance
  rw [h, hr]
  simp

theorem rebalance_eq_loopErr (cid : PyStr) (T : List Partition)
    (max b : Nat) (env : RbEnv) (st st2 : RbState) (tr : List Event)
    (ss : Bool) (e : RbErr)
    (h : (st.consumer.isSome && env.commitRaises) = false)
    (hr : st.running = true)
    (hloop : rebalanceLoop cid T max b env (List.range max) st = (tr, st2, ss, some e)) :
    rebalance cid T max b env st =
      (commitTrace st ++ (Event.lockAcq :: (tr ++ [Event.lockRel])), st2, some e) := by
  unfold rebalance
  rw [h, hr, hloop]
  simp

theorem rebalance_eq_loopStop (cid : PyStr) (T : List Partition)
    (max b : Nat) (env : RbEnv) (st st2 : RbState) (tr : List Event)
    (h : (st.consumer.isSome && env.commitRaises) = false)
    (hr : st.running = true)
    (hloop : rebalanceLoop cid T max b env (List.range max) st = (tr, st2, true, none)) :
    rebalance cid T max b env st =
      (commitTrace st ++ (Event.lockAcq :: (tr ++ ([Event.lockRel, Event.stopCall]
         ++ (stopModel env st2).1))), (stopModel env st2).2, none) := by
  unfold rebalance
  rw [h, hr, hloop]
  simp

theorem rebalance_eq_loopOk (cid : PyStr) (T : List Partition)
    (max b : Nat) (env : RbEnv) (st st2 : RbState) (tr : List Event)
    (h : (st.consumer.isSome && env.commitRaises) = false)
    (hr : st.running = true)
    (hloop : rebalanceLoop cid T max b env (List.range max) st = (tr, st2, false, none)) :
    rebalance cid T max b env st =
      (commitTrace st ++ (Event.lockAcq :: (tr ++ [Event.lockRel])), st2, none) := by
  unfold rebalance
  rw [h, hr, hloop]
  simp

/-- Events that neither touch the rebalancing lock nor invoke `stop`. -/
def lockNeutral : Event → Bool
  | Event.lockAcq => false
  | Event.lockRel => false
  | Event.stopCall => false
  | _ => true

/-- Scanning a trace left to right with `d` unreleased lock acquisitions:
every `stopCall` must happen with zero locks held. -/
def stopSafeAux : Nat → List Event → Prop
  | _, [] => True
  | d, Event.lockAcq :: rest => stopSafeAux (d + 1) rest
  | d, Event.lockRel :: rest => stopSafeAux (d - 1) rest
  | d, Event.stopCall :: rest => d = 0 ∧ stopSafeAux d rest
  | d, _ :: rest => stopSafeAux d rest

theorem stopSafeAux_append_neutral (l1 : List Event)
    (h : ∀ e, e ∈ l1 → lockNeutral e = true) (d : Nat) (l2 : List Event) :
    stopSafeAux d (l1 ++ l2) ↔ stopSafeAux d l2 := by
  induction l1 with
  | nil => simp
  | cons e rest ih =>
    have he : lockNeutral e = true := h e (List.mem_cons_self _ _)
    have hr : ∀ x, x ∈ rest → lockNeutral x = true :=
      fun x hx => h x (List.mem_cons_of_mem _ hx)
    cases e <;> simp only [lockNeutral] at he <;>
      simp only [List.cons_append, stopSafeAux] <;>
      first
        | exact ih hr
        | cases he

theorem addPartitionsGo_neutral (f : Partition → Bool) :
    ∀ (l owned : List Partition) (e : Event),
      e ∈ (addPartitionsGo f owned l).1 → lockNeutral e = true := by
  intro l
  induction l with
  | nil =>
    intro owned e he
    simp [addPartitionsGo] at he
  | cons p rest ih =>
    intro owned e he
    unfold addPartitionsGo at he
    by_cases hf : f p
    · rw [if_pos hf] at he
      simp at he
    · rw [if_neg hf] at he
      simp only [List.mem_cons] at he
      rcases he with he | he
      · subst he
        rfl
      · exact ih _ e he

theorem participantsStep_neutral (cid : PyStr) (T : List Partition) (env : RbEnv) :
    ∀ e, e ∈ (participantsStep cid T env).1 → lockNeutral e = true := by
  intro e he
  unfold participantsStep at he
  split at he
  · simp at he
  · split at he
    · simp at he
    · simp only [List.mem_singleton] at he
      subst he
      rfl

/-- The events a retry-loop iteration emits (before any retry sleep). -/
def stepTrace : StepOut → List Event
  | StepOut.capacity => []
  | StepOut.emptyAssign tr => tr
  | StepOut.owned tr _ _ => tr
  | StepOut.ok tr _ => tr

theorem rebalanceStep_trace_neutral (cid : PyStr) (T : List Partition)
    (env : RbEnv) (i : Nat) (st : RbState) :
    ∀ e, e ∈ stepTrace (rebalanceStep cid T env i st) → lockNeutral e = true := by
  intro e he
  unfold rebalanceStep at he
  rcases hps : participantsStep cid T env with ⟨tr0, pso⟩
  rw [hps] at he
  have htr0 : ∀ x, x ∈ tr0 → lockNeutral x = true := by
    intro x hx
    apply participantsStep_neutral cid T env
    rw [hps]
    exact hx
  cases pso with
  | none => simp [stepTrace] at he
  | some participants =>
    simp only [] at he
    split at he
    · exact htr0 e he
    · rcases hgo : addPartitionsGo (env.peerOwned i)
          (st.zkOwned.filter fun p => decide (p ∈ decide_partitions cid T participants))
          ((decide_partitions cid T participants).filter fun p => !decide (p ∈ st.zkOwned))
        with ⟨addTr, owned2, po⟩
      have haddTr : ∀ x, x ∈ addTr → lockNeutral x = true := by
        intro x hx
        apply addPartitionsGo_neutral _ _ _ x
        rw [hgo]
        exact hx
      rw [hgo] at he
      cases po with
      | some p =>
        simp only [stepTrace, List.mem_append] at he
        rcases he with (he | he) | he
        · exact htr0 e he
        · obtain ⟨q, _, rfl⟩ := List.mem_map.mp he
          rfl
        · exact haddTr e he
      | none =>
        simp only [] at he
        split at he
        · simp only [stepTrace, List.mem_append] at he
          rcases he with (he | he) | he
          · exact htr0 e he
          · obtain ⟨q, _, rfl⟩ := List.mem_map.mp he
            rfl
          · exact haddTr e he
        · simp only [stepTrace, List.append_assoc, List.mem_append,
            List.mem_singleton] at he
          rcases he with he | he | he | he
          · exact htr0 e he
          · obtain ⟨q, _, rfl⟩ := List.mem_map.mp he
            rfl
          · exact haddTr e he
          · subst he
            rfl

theorem rebalanceLoop_nil (cid : PyStr) (T : List Partition) (max b : Nat)
    (env : RbEnv) (st : RbState) :
    rebalanceLoop cid T max b env [] st = ([], st, false, none) := rfl

theorem rebalanceLoop_cons_capacity (cid : PyStr) (T : List Partition)
    (max b i : Nat) (rest : List Nat) (env : RbEnv) (st : RbState)
    (h : rebalanceStep cid T env i st = StepOut.capacity) :
    rebalanceLoop cid T max b env (i :: rest) st =
      ([], st, false, some RbErr.capacityError) := by
  rw [rebalanceLoop]
  rw [h]

theorem rebalanceLoop_cons_empty (cid : PyStr) (T : List Partition)
    (max b i : Nat) (rest : List Nat) (env : RbEnv) (st : RbState)
    (tr : List Event) (h : rebalanceStep cid T env i st = StepOut.emptyAssign tr) :
    rebalanceLoop cid T max b env (i :: rest) st = (tr, st, true, none) := by
  rw [rebalanceLoop]
  rw [h]

theorem rebalanceLoop_cons_owned_last (cid : PyStr) (T : List Partition)
    (max b i : Nat) (rest : List Nat) (env : RbEnv) (st st1 : RbState)
    (tr : List Event) (p : Partition)
    (h : rebalanceStep cid T env i st = StepOut.owned tr st1 p)
    (hi : i = max - 1) :
    rebalanceLoop cid T max b env (i :: rest) st =
      (tr, st1, false, some (RbErr.partitionOwned p)) := by
  rw [rebalanceLoop]
  rw [h]
  simp only []
  rw [if_pos hi]

theorem rebalanceLoop_cons_owned_retry (cid : PyStr) (T : List Partition)
    (max b i : Nat) (rest : List Nat) (env : RbEnv) (st st1 : RbState)
    (tr : List Event) (p : Partition)
    (h : rebalanceStep cid T env i st = StepOut.owned tr st1 p)
    (hi : ¬ i = max - 1) :
    rebalanceLoop cid T max b env (i :: rest) st =
      (tr ++ [Event.sleep (i * b)] ++ (rebalanceLoop cid T max b env rest st1).1,
       (rebalanceLoop cid T max b env rest st1).2) := by
  rw [rebalanceLoop]
  rw [h]
  simp only []
  rw [if_neg hi]

theorem rebalanceLoop_cons_ok (cid : PyStr) (T : List Partition)
    (max b i : Nat) (rest : List Nat) (env : RbEnv) (st st1 : RbState)
    (tr : List Event) (h : rebalanceStep cid T env i st = StepOut.ok tr st1) :
    rebalanceLoop cid T max b env (i :: rest) st = (tr, st1, false, none) := by
  rw [rebalanceLoop]
  rw [h]

theorem rebalanceLoop_neutral (cid : PyStr) (T : List Partition) (max b : Nat)
    (env : RbEnv) :
    ∀ (l : List Nat) (st : RbState) (e : Event),
      e ∈ (rebalanceLoop cid T max b env l st).1 → lockNeutral e = true := by
  intro l
  induction l with
  | nil =>
    intro st e he
    simp [rebalanceLoop] at he
  | cons i rest ih =>
    intro st e he
    have hstepn := rebalanceStep_trace_neutral cid T env i st
    rcases hstep : rebalanceStep cid T env i st with _ | tr | ⟨tr, st1, p⟩ | ⟨tr, st1⟩ <;>
      rw [hstep] at hstepn
    · rw [rebalanceLoop_cons_capacity cid T max b i rest env st hstep] at he
      simp at he
    · rw [rebalanceLoop_cons_empty cid T max b i rest env st tr hstep] at he
      exact hstepn e he
    · by_cases hi : i = max - 1
      · rw [rebalanceLoop_cons_owned_last cid T max b i rest env st st1 tr p hstep hi] at he
        exact hstepn e he
      · rw [rebalanceLoop_cons_owned_retry cid T max b i rest env st st1 tr p hstep hi] at he
        simp only [List.append_assoc, List.mem_append, List.mem_singleton] at he
        rcases he with he | he | he
        · exact hstepn e he
        · subst he
          rfl
        · exact ih _ e he
    · rw [rebalanceLoop_cons_ok cid T max b i rest env st st1 tr hstep] at he
      exact hstepn e he

theorem stopModel_trace_shape (env : RbEnv) (st : RbState) :
    ∃ post, (stopModel env st).1 = Event.lockAcq :: Event.lockRel :: post
      ∧ ∀ e, e ∈ post → lockNeutral e = true := by
  unfold stopModel
  split
  · exact ⟨[], rfl, by intro e he; simp at he⟩
  · refine ⟨st.zkOwned.map Event.removeOwned ++ [Event.removeSelf], rfl, ?_⟩
    intro e he
    simp only [List.mem_append, List.mem_singleton] at he
    rcases he with he | he
    · obtain ⟨q, _, rfl⟩ := List.mem_map.mp he
      rfl
    · subst he
      rfl

theorem commitTrace_neutral (st : RbState) :
    ∀ e, e ∈ commitTrace st → lockNeutral e = true := by
  intro e he
  unfold commitTrace at he
  split at he
  · simp only [List.mem_singleton] at he
    subst he
    rfl
  · simp at he

theorem stopSafeAux_neutral_all (l : List Event)
    (h : ∀ e, e ∈ l → lockNeutral e = true) (d : Nat) : stopSafeAux d l := by
  have h2 := stopSafeAux_append_neutral l h d []
  rw [List.append_nil] at h2
  exact h2.mpr trivial

theorem stopSafeAux_bracket (tr l2 : List Event)
    (htr : ∀ e, e ∈ tr → lockNeutral e = true) (h2 : stopSafeAux 1 l2) :
    stopSafeAux 0 (Event.lockAcq :: (tr ++ l2)) := by
  show stopSafeAux 1 (tr ++ l2)
  rw [stopSafeAux_append_neutral tr htr]
  exact h2

/-- In every possible trace of `_rebalance`, `stop()` is only ever invoked
with zero unreleased acquisitions of the rebalancing lock. -/
theorem rebalance_stopSafe (cid : PyStr) (T : List Partition) (max b : Nat)
    (env : RbEnv) (st : RbState) :
    stopSafeAux 0 (rebalance cid T max b env st).1 := by
  have hcommit : ∀ (l : List Event),
      stopSafeAux 0 (commitTrace st ++ l) ↔ stopSafeAux 0 l :=
    fun l => stopSafeAux_append_neutral (commitTrace st) (commitTrace_neutral st) 0 l
  by_cases hcr : (st.consumer.isSome && env.commitRaises) = true
  · have h12 : st.consumer.isSome = true ∧ env.commitRaises = true := by
      simpa using hcr
    rw [rebalance_eq_commitFail cid T max b env st h12.1 h12.2]
    show stopSafeAux 0 [Event.commit]
    exact trivial
  · have hcr2 : (st.consumer.isSome && env.commitRaises) = false := by
      simpa using hcr
    by_cases hr : st.running = true
    · rcases hloop : rebalanceLoop cid T max b env (List.range max) st
        with ⟨tr, st2, ss, err⟩
      have htr : ∀ e, e ∈ tr → lockNeutral e = true := by
        intro e he
        apply rebalanceLoop_neutral cid T max b env _ st e
        rw [hloop]
        exact he
      cases err with
      | some e =>
        rw [rebalance_eq_loopErr cid T max b env st st2 tr ss e hcr2 hr hloop]
        exact (hcommit _).mpr (stopSafeAux_bracket tr [Event.lockRel] htr trivial)
      | none =>
        cases ss with
        | true =>
          rw [rebalance_eq_loopStop cid T max b env st st2 tr hcr2 hr hloop]
          have hstopTr : stopSafeAux 0 (stopModel env st2).1 := by
            obtain ⟨post, hpost, hneut⟩ := stopModel_trace_shape env st2
            rw [hpost]
            show stopSafeAux 0 post
            exact stopSafeAux_neutral_all post hneut 0
          refine (hcommit _).mpr ?_
          exact stopSafeAux_bracket tr ([Event.lockRel, Event.stopCall]
            ++ (stopModel env st2).1) htr ⟨rfl, hstopTr⟩
        | false =>
          rw [rebalance_eq_loopOk cid T max b env st st2 tr hcr2 hr hloop]
          exact (hcommit _).mpr (stopSafeAux_bracket tr [Event.lockRel] htr trivial)
    · have hr2 : st.running = false := by
        simpa using hr
      rw [rebalance_eq_notRunning cid T max b env st hcr2 hr2]
      show stopSafeAux 0 (commitTrace st ++ [Event.lockAcq, Event.lockRel])
      exact (hcommit _).mpr trivial

theorem rebalanceStep_empty (cid : PyStr) (T : List Partition) (env : RbEnv)
    (i : Nat) (st : RbState) (hmem : cid ∈ env.participants)
    (hempty : decide_partitions cid T env.participants = []) :
    rebalanceStep cid T env i st = StepOut.emptyAssign [] := by
  unfold rebalanceStep participantsStep
  rw [if_pos hmem]
  simp only [hempty]
  rfl

theorem decide_partitions_empty_iff (T3 : List Partition) (P3 : List PyStr)
    (m : PyStr) (hlt : T3.length < P3.length) :
    decide_partitions m T3 P3 = [] ↔
      T3.length ≤ (List.insertionSort (· ≤ ·) P3).indexOf m := by
  have hTlen : (List.insertionSort partLe T3).length = T3.length :=
    (List.perm_insertionSort partLe T3).length_eq
  have hPlen : (List.insertionSort (· ≤ ·) P3).length = P3.length :=
    (List.perm_insertionSort _ P3).length_eq
  rw [decide_partitions_def]
  unfold assignSlice sliceStart sliceCount
  rw [hTlen, hPlen]
  have hdiv : T3.length / P3.length = 0 := Nat.div_eq_of_lt hlt
  have hmod : T3.length % P3.length = T3.length := Nat.mod_eq_of_lt hlt
  rw [hdiv, hmod]
  rcases Nat.lt_or_ge ((List.insertionSort (· ≤ ·) P3).indexOf m) T3.length
    with h | h
  · have hcount : (0 + if T3.length < (List.insertionSort (· ≤ ·) P3).indexOf m + 1
        then 0 else 1) = 1 := by
      rw [if_neg (by omega)]
    have hstart : 0 * (List.insertionSort (· ≤ ·) P3).indexOf m
        + min ((List.insertionSort (· ≤ ·) P3).indexOf m) T3.length
        = (List.insertionSort (· ≤ ·) P3).indexOf m := by
      omega
    rw [hcount, hstart]
    constructor
    · intro habs
      exfalso
      have hlen := congrArg List.length habs
      rw [List.length_take, List.length_drop, hTlen] at hlen
      simp at hlen
      omega
    · intro habs
      omega
  · have hcount : (0 + if T3.length < (List.insertionSort (· ≤ ·) P3).indexOf m + 1
        then 0 else 1) = 0 := by
      rw [if_pos (by omega)]
    rw [hcount]
    simp [h]

/-- A coordinator environment for concrete runs: participants
`["a", "b"]`, no peer collisions, offset commits succeed, the consumer
owns its zookeeper session. -/
def exEnv2 : RbEnv := ⟨[['a'], ['b']], fun _ _ => false, false, true⟩

/-- C4: when the computed assignment is empty — which, whenever
`|T| < |P|`, happens exactly for the sorted members at index `≥ |T|`, the
last `|P| - |T|` of them — the rebalancer records the deferred
`should_stop` flag, performs no partition removals or claims in that pass
(the trace between the lock events is empty), and calls `stop()` only
after releasing the rebalance mutex; moreover in every trace of
`_rebalance` whatsoever, `stop()` is never invoked while the rebalance
mutex is held. -/
theorem rebalance_empty_assignment_defers_stop (cid : PyStr)
    (T : List Partition) (max b : Nat) (env : RbEnv) (st : RbState)
    (hrun : st.running = true) (hc : env.commitRaises = false)
    (hmem : cid ∈ env.participants) (hmax : 0 < max)
    (hempty : decide_partitions cid T env.participants = []) :
    rebalance cid T max b env st =
      (commitTrace st ++ (Event.lockAcq :: (Event.lockRel :: (Event.stopCall ::
         (stopModel env st).1))), (stopModel env st).2, none)
    ∧ (∀ (cid2 : PyStr) (T2 : List Partition) (max2 b2 : Nat) (env2 : RbEnv)
        (st2 : RbState), stopSafeAux 0 (rebalance cid2 T2 max2 b2 env2 st2).1)
    ∧ (∀ (T3 : List Partition) (P3 : List PyStr) (m : PyStr),
        T3.length < P3.length →
        (decide_partitions m T3 P3 = [] ↔
          T3.length ≤ (List.insertionSort (· ≤ ·) P3).indexOf m)) := by
  refine ⟨?_, rebalance_stopSafe, fun T3 P3 m hlt => decide_partitions_empty_iff T3 P3 m hlt⟩
  obtain ⟨n, rfl⟩ : ∃ n, max = n + 1 := ⟨max - 1, by omega⟩
  have hrange : List.range (n + 1) = 0 :: List.range' 1 n := by
    rw [List.range_eq_range', List.range'_succ]
  have hloop : rebalanceLoop cid T (n + 1) b env (List.range (n + 1)) st
      = ([], st, true, none) := by
    rw [hrange]
    exact rebalanceLoop_cons_empty cid T (n + 1) b 0 (List.range' 1 n) env st []
      (rebalanceStep_empty cid T env 0 st hmem hempty)
  have hcr2 : (st.consumer.isSome && env.commitRaises) = false := by
    rw [hc]
    exact Bool.and_false _
  rw [rebalance_eq_loopStop cid T (n + 1) b env st st [] hcr2 hrun hloop]
  simp

/-- Witness for C4: member `"b"` of `P = ["a","b"]` with the single
partition `T = [p0]` computes the empty assignment, defers the stop past
the lock release, and removes and claims nothing in the pass. -/
theorem rebalance_empty_assignment_defers_stop_witness :
    rebalance ['b'] [xp 0] 5 2000 exEnv2 ⟨true, none, []⟩ =
      (commitTrace ⟨true, none, []⟩ ++ (Event.lockAcq :: (Event.lockRel ::
         (Event.stopCall :: (stopModel exEnv2 ⟨true, none, []⟩).1))),
       (stopModel exEnv2 ⟨true, none, []⟩).2, none) :=
  (rebalance_empty_assignment_defers_stop ['b'] [xp 0] 5 2000 exEnv2
    ⟨true, none, []⟩ rfl rfl (by decide) (by decide) (by decide)).1

theorem rebalanceStep_allFail (cid : PyStr) (T : List Partition) (env : RbEnv)
    (i : Nat) (st : RbState) (hmem : cid ∈ env.participants)
    (hall : ∀ p, env.peerOwned i p = true) (hz : st.zkOwned = [])
    (p0 : Partition) (tl : List Partition)
    (hA : decide_partitions cid T env.participants = p0 :: tl) :
    rebalanceStep cid T env i st = StepOut.owned [] st p0 := by
  have hfilter : (p0 :: tl).filter (fun p => !decide (p ∈ ([] : List Partition)))
      = p0 :: tl := by
    apply List.filter_eq_self.mpr
    intro a _
    simp
  have hst : { st with zkOwned := ([] : List Partition) } = st := by
    rw [← hz]
  unfold rebalanceStep participantsStep
  rw [if_pos hmem]
  simp only [hA, hz, List.filter_nil, hfilter]
  unfold addPartitionsGo
  rw [hall p0]
  simp [hst]

theorem rebalanceLoop_allFail (cid : PyStr) (T : List Partition)
    (max b : Nat) (env : RbEnv) (hmem : cid ∈ env.participants)
    (hall : ∀ i p, env.peerOwned i p = true)
    (p0 : Partition) (tl : List Partition)
    (hA : decide_partitions cid T env.participants = p0 :: tl) :
    ∀ (len i0 : Nat) (st : RbState), i0 + len = max → 0 < len →
      st.zkOwned = [] →
      rebalanceLoop cid T max b env (List.range' i0 len) st =
        ((List.range' i0 (len - 1)).map (fun i => Event.sleep (i * b)), st,
         false, some (RbErr.partitionOwned p0)) := by
  intro len
  induction len with
  | zero =>
    intro i0 st h1 h2
    omega
  | succ n ih =>
    intro i0 st h1 _ hz
    rw [List.range'_succ]
    have hstep := rebalanceStep_allFail cid T env i0 st hmem (hall i0) hz p0 tl hA
    rcases Nat.eq_zero_or_pos n with hn | hn
    · subst hn
      have hi0 : i0 = max - 1 := by omega
      rw [rebalanceLoop_cons_owned_last cid T max b i0 (List.range' (i0 + 1) 0)
        env st st [] p0 hstep hi0]
      simp
    · have hi0 : ¬ i0 = max - 1 := by omega
      rw [rebalanceLoop_cons_owned_retry cid T max b i0 (List.range' (i0 + 1) n)
        env st st [] p0 hstep hi0]
      rw [ih (i0 + 1) st (by omega) hn hz]
      have hrange : List.range' i0 (n + 1 - 1) = i0 :: List.range' (i0 + 1) (n - 1) := by
        have : n + 1 - 1 = (n - 1) + 1 := by omega
        rw [this, List.range'_succ]
      rw [hrange]
      simp

/-- A coordinator environment in which a peer owns every partition at
every retry: participants `["a", "b"]`, every claim collides, commits
succeed, owned session. -/
def exEnvOwned : RbEnv := ⟨[['a'], ['b']], fun _ _ => true, false, true⟩

/-- C3: when every claim attempt raises `PartitionOwnedError`, iteration
`i < rebalance_max_retries - 1` sleeps `i * rebalance_backoff_ms` and
restarts the loop (the trace records the sleeps `0·b, 1·b, …,
(max-2)·b` in order), and only iteration `i = rebalance_max_retries - 1`
lets the error propagate to the caller: the error is surfaced after
exactly `rebalance_max_retries` attempts. -/
theorem rebalance_retry_backoff_surfaces_after_max (cid : PyStr)
    (T : List Partition) (max b : Nat) (env : RbEnv) (st : RbState)
    (hrun : st.running = true) (hc : env.commitRaises = false)
    (hmem : cid ∈ env.participants) (hmax : 0 < max)
    (hall : ∀ i p, env.peerOwned i p = true) (hz : st.zkOwned = [])
    (p0 : Partition) (tl : List Partition)
    (hA : decide_partitions cid T env.participants = p0 :: tl) :
    rebalance cid T max b env st =
      (commitTrace st ++ (Event.lockAcq ::
         (((List.range (max - 1)).map (fun i => Event.sleep (i * b)))
           ++ [Event.lockRel])),
       st, some (RbErr.partitionOwned p0)) := by
  have hcr2 : (st.consumer.isSome && env.commitRaises) = false := by
    rw [hc]
    exact Bool.and_false _
  have hloop : rebalanceLoop cid T max b env (List.range max) st =
      ((List.range' 0 (max - 1)).map (fun i => Event.sleep (i * b)), st,
       false, some (RbErr.partitionOwned p0)) := by
    rw [List.range_eq_range']
    exact rebalanceLoop_allFail cid T max b env hmem hall p0 tl hA max 0 st
      (by omega) hmax hz
  rw [rebalance_eq_loopErr cid T max b env st st
    ((List.range' 0 (max - 1)).map (fun i => Event.sleep (i * b))) false
    (RbErr.partitionOwned p0) hcr2 hrun hloop]
  rw [List.range_eq_range']

/-- Witness for C3: two participants, three partitions, every claim
collides for five retries with backoff 2000 ms: the trace sleeps
0, 2000, 4000, 6000 ms and the fifth attempt surfaces
`PartitionOwnedError`. -/
theorem rebalance_retry_backoff_surfaces_after_max_witness :
    rebalance ['b'] [xp 0, xp 1, xp 2] 5 2000 exEnvOwned ⟨true, none, []⟩ =
      (commitTrace ⟨true, none, []⟩ ++ (Event.lockAcq ::
         (((List.range 4).map (fun i => Event.sleep (i * 2000)))
           ++ [Event.lockRel])),
       ⟨true, none, []⟩, some (RbErr.partitionOwned (xp 2))) :=
  rebalance_retry_backoff_surfaces_after_max ['b'] [xp 0, xp 1, xp 2] 5 2000
    exEnvOwned ⟨true, none, []⟩ rfl rfl (by decide) (by decide)
    (fun _ _ => rfl) rfl (xp 2) [] (by decide)

theorem addPartitionsGo_none (f : Partition → Bool) :
    ∀ (l owned : List Partition) (addTr : List Event) (owned2 : List Partition),
      addPartitionsGo f owned l = (addTr, owned2, none) → owned2 = owned ++ l := by
  intro l
  induction l with
  | nil =>
    intro owned addTr owned2 h
    unfold addPartitionsGo at h
    rw [List.append_nil]
    exact ((Prod.mk.injEq _ _ _ _).mp ((Prod.mk.injEq _ _ _ _).mp h).2).1.symm
  | cons p rest ih =>
    intro owned addTr owned2 h
    unfold addPartitionsGo at h
    by_cases hf : f p
    · rw [if_pos hf] at h
      exact absurd ((Prod.mk.injEq _ _ _ _).mp ((Prod.mk.injEq _ _ _ _).mp h).2).2
        (by simp)
    · rw [if_neg hf] at h
      rcases hr : addPartitionsGo f (owned ++ [p]) rest with ⟨tr2, o2, e2⟩
      rw [hr] at h
      have hparts := (Prod.mk.injEq _ _ _ _).mp h
      have h2 := (Prod.mk.injEq _ _ _ _).mp hparts.2
      have ho2 : o2 = owned2 := h2.1
      have he2 : e2 = none := h2.2
      rw [ho2, he2] at hr
      have := ih (owned ++ [p]) tr2 owned2 hr
      rw [this, List.append_assoc]
      rfl

theorem mem_filter_union (current A : List Partition) (x : Partition) :
    x ∈ current.filter (fun p => decide (p ∈ A))
        ++ A.filter (fun p => !decide (p ∈ current)) ↔ x ∈ A := by
  simp only [List.mem_append, List.mem_filter]
  constructor
  · rintro (⟨_, h2⟩ | ⟨h1, _⟩)
    · exact of_decide_eq_true h2
    · exact h1
  · intro hx
    by_cases hc : x ∈ current
    · exact Or.inl ⟨hc, decide_eq_true hx⟩
    · exact Or.inr ⟨hx, by simp [hc]⟩

/-- The steady state a successful pass establishes: the assignment for the
current `(P, T)` is non-empty, the inner consumer covers exactly it, and
so do this member's coordinator ownership records. -/
def steadyFor (cid : PyStr) (T : List Partition) (env : RbEnv)
    (st : RbState) : Prop :=
  decide_partitions cid T (effParticipants env cid) ≠ []
  ∧ (∃ ps, st.consumer = some ps
      ∧ (∀ x, x ∈ ps ↔ x ∈ decide_partitions cid T (effParticipants env cid)))
  ∧ (∀ x, x ∈ st.zkOwned ↔ x ∈ decide_partitions cid T (effParticipants env cid))

theorem stopModel_running (env : RbEnv) (st : RbState) :
    (stopModel env st).2.running = false := by
  unfold stopModel
  split <;> rfl

theorem rebalanceStep_capacity (cid : PyStr) (T : List Partition) (env : RbEnv)
    (i : Nat) (st : RbState) (hmem : cid ∉ env.participants)
    (hcap : T.length ≤ env.participants.length) :
    rebalanceStep cid T env i st = StepOut.capacity := by
  unfold rebalanceStep participantsStep
  rw [if_neg hmem, if_pos hcap]

theorem participantsStep_trace_cases (cid : PyStr) (T : List Partition)
    (env : RbEnv) :
    (participantsStep cid T env).1 = []
      ∨ (participantsStep cid T env).1 = [Event.addSelf] := by
  unfold participantsStep
  split
  · exact Or.inl rfl
  · split
    · exact Or.inl rfl
    · exact Or.inr rfl

theorem participantsStep_some_eff (cid : PyStr) (T : List Partition)
    (env : RbEnv) (tr0 : List Event) (ps : List PyStr)
    (h : participantsStep cid T env = (tr0, some ps)) :
    ps = effParticipants env cid := by
  unfold participantsStep at h
  unfold effParticipants
  by_cases h1 : cid ∈ env.participants
  · rw [if_pos h1] at h
    rw [if_pos h1]
    exact (Option.some.injEq _ _).mp ((Prod.mk.injEq _ _ _ _).mp h).2.symm
  · rw [if_neg h1] at h
    rw [if_neg h1]
    by_cases h2 : T.length ≤ env.participants.length
    · rw [if_pos h2] at h
      exact absurd ((Prod.mk.injEq _ _ _ _).mp h).2 (by simp)
    · rw [if_neg h2] at h
      exact (Option.some.injEq _ _).mp ((Prod.mk.injEq _ _ _ _).mp h).2.symm

theorem participantsStep_ok (cid : PyStr) (T : List Partition) (env : RbEnv)
    (hcap : cid ∈ env.participants ∨ env.participants.length < T.length) :
    ∃ tr0, participantsStep cid T env = (tr0, some (effParticipants env cid)) := by
  unfold participantsStep effParticipants
  by_cases h1 : cid ∈ env.participants
  · rw [if_pos h1, if_pos h1]
    exact ⟨[], rfl⟩
  · have h2 : env.participants.length < T.length := hcap.resolve_left h1
    rw [if_neg h1, if_neg h1, if_neg (by omega)]
    exact ⟨[Event.addSelf], rfl⟩

theorem rebalanceStep_ok_inv (cid : PyStr) (T : List Partition) (env : RbEnv)
    (i : Nat) (st st1 : RbState) (tr : List Event)
    (h : rebalanceStep cid T env i st = StepOut.ok tr st1) :
    steadyFor cid T env st1 := by
  unfold rebalanceStep at h
  split at h
  · exact StepOut.noConfusion h
  · rename_i tr0 participants hps
    have hparts := participantsStep_some_eff cid T env tr0 participants hps
    subst hparts
    simp only [] at h
    split at h
    · exact StepOut.noConfusion h
    · rename_i hemp
      have hA : decide_partitions cid T (effParticipants env cid) ≠ [] := by
        intro hnil
        rw [hnil] at hemp
        simp at hemp
      split at h
      · exact StepOut.noConfusion h
      · rename_i addTr owned2 hgo
        have howned2 := addPartitionsGo_none (env.peerOwned i) _ _ addTr owned2 hgo
        split at h
        · rename_i hset
          injection h with htr hst1
          refine ⟨hA, ?_, ?_⟩
          · rcases hcons : st.consumer with _ | ps
            · exfalso
              obtain ⟨x, hx⟩ := List.exists_mem_of_ne_nil _ hA
              have hx2 := hset.1 x hx
              rw [show ({ st with zkOwned := owned2 } : RbState).selfPartitions
                  = st.selfPartitions from rfl] at hx2
              unfold RbState.selfPartitions at hx2
              rw [hcons] at hx2
              simp at hx2
            · refine ⟨ps, ?_, ?_⟩
              · rw [← hst1]
                exact hcons
              · intro x
                have hsp : ({ st with zkOwned := owned2 } : RbState).selfPartitions
                    = ps := by
                  unfold RbState.selfPartitions
                  rw [show ({ st with zkOwned := owned2 } : RbState).consumer
                      = st.consumer from rfl, hcons]
                constructor
                · intro hx
                  exact hset.2 x (by rw [hsp]; exact hx)
                · intro hx
                  have := hset.1 x hx
                  rw [hsp] at this
                  exact this
          · intro x
            rw [← hst1]
            show x ∈ owned2 ↔ _
            rw [howned2]
            exact mem_filter_union st.zkOwned _ x
        · injection h with htr hst1
          refine ⟨hA, ?_, ?_⟩
          · refine ⟨decide_partitions cid T (effParticipants env cid), ?_, ?_⟩
            · rw [← hst1]
            · intro x
              exact Iff.rfl
          · intro x
            rw [← hst1]
            show x ∈ owned2 ↔ _
            rw [howned2]
            exact mem_filter_union st.zkOwned _ x

theorem rebalanceStep_steady (cid : PyStr) (T : List Partition) (env : RbEnv)
    (i : Nat) (st : RbState) (hsteady : steadyFor cid T env st)
    (hcap : cid ∈ env.participants ∨ env.participants.length < T.length) :
    ∃ tr0, (tr0 = [] ∨ tr0 = [Event.addSelf])
      ∧ rebalanceStep cid T env i st = StepOut.ok tr0 st := by
  obtain ⟨tr0, hps⟩ := participantsStep_ok cid T env hcap
  have htr0 : tr0 = [] ∨ tr0 = [Event.addSelf] := by
    have hc := participantsStep_trace_cases cid T env
    rw [hps] at hc
    exact hc
  obtain ⟨hA, ⟨ps, hcons, hpsmem⟩, hzk⟩ := hsteady
  refine ⟨tr0, htr0, ?_⟩
  unfold rebalanceStep
  rw [hps]
  simp only []
  have hemp : ¬ (decide_partitions cid T (effParticipants env cid)).isEmpty = true := by
    intro hh
    exact hA (List.isEmpty_iff.mp hh)
  rw [if_neg hemp]
  have h1 : st.zkOwned.filter
      (fun p => !decide (p ∈ decide_partitions cid T (effParticipants env cid))) = [] := by
    rw [List.filter_eq_nil_iff]
    intro a ha
    simp [(hzk a).mp ha]
  have h2 : st.zkOwned.filter
      (fun p => decide (p ∈ decide_partitions cid T (effParticipants env cid)))
      = st.zkOwned := by
    rw [List.filter_eq_self]
    intro a ha
    simp [(hzk a).mp ha]
  have h3 : (decide_partitions cid T (effParticipants env cid)).filter
      (fun p => !decide (p ∈ st.zkOwned)) = [] := by
    rw [List.filter_eq_nil_iff]
    intro a ha
    simp [(hzk a).mpr ha]
  rw [h1, h2, h3]
  show (match addPartitionsGo (env.peerOwned i) st.zkOwned [] with
    | (addTr, owned2, some p) =>
      StepOut.owned (tr0 ++ List.map Event.removeOwned [] ++ addTr)
        { st with zkOwned := owned2 } p
    | (addTr, owned2, none) =>
      if (∀ p, p ∈ decide_partitions cid T (effParticipants env cid) →
            p ∈ ({ st with zkOwned := owned2 } : RbState).selfPartitions)
          ∧ (∀ p, p ∈ ({ st with zkOwned := owned2 } : RbState).selfPartitions →
            p ∈ decide_partitions cid T (effParticipants env cid)) then
        StepOut.ok (tr0 ++ List.map Event.removeOwned [] ++ addTr)
          { st with zkOwned := owned2 }
      else
        StepOut.ok (tr0 ++ List.map Event.removeOwned [] ++ addTr
            ++ [Event.setupConsumer (decide_partitions cid T (effParticipants env cid))])
          { st with zkOwned := owned2, consumer := some (decide_partitions cid T (effParticipants env cid)) })
    = StepOut.ok tr0 st
  have hsp : ({ st with zkOwned := st.zkOwned } : RbState).selfPartitions = ps := by
    unfold RbState.selfPartitions
    rw [show ({ st with zkOwned := st.zkOwned } : RbState).consumer
        = st.consumer from rfl, hcons]
  have hset : (∀ p, p ∈ decide_partitions cid T (effParticipants env cid) →
        p ∈ ({ st with zkOwned := st.zkOwned } : RbState).selfPartitions)
      ∧ (∀ p, p ∈ ({ st with zkOwned := st.zkOwned } : RbState).selfPartitions →
        p ∈ decide_partitions cid T (effParticipants env cid)) := by
    rw [hsp]
    exact ⟨fun p hp => (hpsmem p).mpr hp, fun p hp => (hpsmem p).mp hp⟩
  show (if (∀ p, p ∈ decide_partitions cid T (effParticipants env cid) →
        p ∈ ({ st with zkOwned := st.zkOwned } : RbState).selfPartitions)
      ∧ (∀ p, p ∈ ({ st with zkOwned := st.zkOwned } : RbState).selfPartitions →
        p ∈ decide_partitions cid T (effParticipants env cid)) then
      StepOut.ok (tr0 ++ List.map Event.removeOwned [] ++ [])
        { st with zkOwned := st.zkOwned }
    else
      StepOut.ok (tr0 ++ List.map Event.removeOwned [] ++ []
          ++ [Event.setupConsumer (decide_partitions cid T (effParticipants env cid))])
        { st with zkOwned := st.zkOwned, consumer := some (decide_partitions cid T (effParticipants env cid)) })
    = StepOut.ok tr0 st
  rw [if_pos hset]
  simp

theorem rebalanceLoop_ok_steady (cid : PyStr) (T : List Partition)
    (max b : Nat) (env : RbEnv) :
    ∀ (len i0 : Nat) (st : RbState) (tr : List Event) (st1 : RbState),
      i0 + len = max →
      rebalanceLoop cid T max b env (List.range' i0 len) st = (tr, st1, false, none) →
      (len = 0 ∧ st1 = st) ∨ steadyFor cid T env st1 := by
  intro len
  induction len with
  | zero =>
    intro i0 st tr st1 _ h
    rw [show List.range' i0 0 = [] from rfl, rebalanceLoop_nil] at h
    have h2 := ((Prod.mk.injEq _ _ _ _).mp h).2
    exact Or.inl ⟨rfl, (((Prod.mk.injEq _ _ _ _).mp h2).1).symm⟩
  | succ n ih =>
    intro i0 st tr st1 h1 h
    rw [List.range'_succ] at h
    rcases hstep : rebalanceStep cid T env i0 st with _ | tr0 | ⟨tr0, stm, p⟩ | ⟨tr0, stm⟩
    · rw [rebalanceLoop_cons_capacity cid T max b i0 _ env st hstep] at h
      simp [Prod.ext_iff] at h
    · rw [rebalanceLoop_cons_empty cid T max b i0 _ env st tr0 hstep] at h
      simp [Prod.ext_iff] at h
    · by_cases hi : i0 = max - 1
      · rw [rebalanceLoop_cons_owned_last cid T max b i0 _ env st stm tr0 p
          hstep hi] at h
        simp [Prod.ext_iff] at h
      · rw [rebalanceLoop_cons_owned_retry cid T max b i0 _ env st stm tr0 p
          hstep hi] at h
        rcases hrec : rebalanceLoop cid T max b env (List.range' (i0 + 1) n) stm
          with ⟨tr2, st2, ss2, err2⟩
        rw [hrec] at h
        have hcomp := (Prod.mk.injEq _ _ _ _).mp h
        have hcomp2 := (Prod.mk.injEq _ _ _ _).mp hcomp.2
        have hcomp3 := (Prod.mk.injEq _ _ _ _).mp hcomp2.2
        rw [hcomp2.1, hcomp3.1, hcomp3.2] at hrec
        rcases ih (i0 + 1) stm tr2 st1 (by omega) hrec with ⟨hn0, _⟩ | hsteady
        · omega
        · exact Or.inr hsteady
    · rw [rebalanceLoop_cons_ok cid T max b i0 _ env st stm tr0 hstep] at h
      have hcomp := (Prod.mk.injEq _ _ _ _).mp h
      have hst1 : stm = st1 := ((Prod.mk.injEq _ _ _ _).mp hcomp.2).1
      exact Or.inr (hst1 ▸ rebalanceStep_ok_inv cid T env i0 st stm tr0 hstep)

/-- Events that change the coordinator ownership state or the inner
consumer: ownership-record removal or creation, consumer re-creation
(which tears down the previous consumer), and `stop()`. -/
def mutatesOwnership : Event → Bool
  | Event.removeOwned _ => true
  | Event.addOwned _ => true
  | Event.setupConsumer _ => true
  | Event.stopCall => true
  | _ => false

/-- C8: running `_rebalance` twice in succession with the participant set
and partition set unchanged is idempotent: given a first run that
completed without error and without stopping, the second run returns the
state unchanged (same ownership records, same inner consumer), raises
nothing, and its trace contains no ownership removal, no ownership
creation, no consumer re-creation and no stop. -/
theorem rebalance_idempotent (cid : PyStr) (T : List Partition) (max b : Nat)
    (env : RbEnv) (st : RbState) (tr1 : List Event) (st1 : RbState)
    (hc : env.commitRaises = false)
    (h1 : rebalance cid T max b env st = (tr1, st1, none))
    (hrun : st1.running = true) :
    (rebalance cid T max b env st1).2.1 = st1
    ∧ (rebalance cid T max b env st1).2.2 = none
    ∧ (∀ e, e ∈ (rebalance cid T max b env st1).1 → mutatesOwnership e = false) := by
  have hcra : (st.consumer.isSome && env.commitRaises) = false := by
    rw [hc]
    exact Bool.and_false _
  have hcrb : (st1.consumer.isSome && env.commitRaises) = false := by
    rw [hc]
    exact Bool.and_false _
  by_cases hr : st.running = true
  · rcases hloop : rebalanceLoop cid T max b env (List.range max) st
      with ⟨tr, st2, ss, err⟩
    cases err with
    | some e =>
      rw [rebalance_eq_loopErr cid T max b env st st2 tr ss e hcra hr hloop] at h1
      simp [Prod.ext_iff] at h1
    | none =>
      cases ss with
      | true =>
        rw [rebalance_eq_loopStop cid T max b env st st2 tr hcra hr hloop] at h1
        have hst1 : (stopModel env st2).2 = st1 :=
          ((Prod.mk.injEq _ _ _ _).mp ((Prod.mk.injEq _ _ _ _).mp h1).2).1
        rw [← hst1, stopModel_running] at hrun
        exact absurd hrun (by simp)
      | false =>
        rw [rebalance_eq_loopOk cid T max b env st st2 tr hcra hr hloop] at h1
        have hst1 : st2 = st1 :=
          ((Prod.mk.injEq _ _ _ _).mp ((Prod.mk.injEq _ _ _ _).mp h1).2).1
        rw [hst1] at hloop
        rw [List.range_eq_range'] at hloop
        rcases Nat.eq_zero_or_pos max with hmax0 | hmaxpos
        · subst hmax0
          have hloop2 : rebalanceLoop cid T 0 b env (List.range 0) st1
              = ([], st1, false, none) := rebalanceLoop_nil cid T 0 b env st1
          rw [rebalance_eq_loopOk cid T 0 b env st1 st1 [] hcrb hrun hloop2]
          refine ⟨rfl, rfl, ?_⟩
          intro e he
          simp only [List.mem_append, List.nil_append] at he
          rcases he with he | he
          · unfold commitTrace at he
            split at he
            · simp only [List.mem_singleton] at he
              subst he
              rfl
            · simp at he
          · simp only [List.mem_cons] at he
            rcases he with he | he | he
            · subst he
              rfl
            · subst he
              rfl
            · simp at he
        · obtain ⟨m, rfl⟩ : ∃ m, max = m + 1 := ⟨max - 1, by omega⟩
          have hsteady2 := rebalanceLoop_ok_steady cid T (m + 1) b env (m + 1) 0
            st tr st1 (by omega) hloop
          rcases hsteady2 with ⟨hlen0, _⟩ | hsteady
          · omega
          have hcap : cid ∈ env.participants ∨ env.participants.length < T.length := by
            by_cases hmem : cid ∈ env.participants
            · exact Or.inl hmem
            · right
              by_contra hle
              have hle2 : T.length ≤ env.participants.length := by omega
              have hcapstep := rebalanceStep_capacity cid T env 0 st hmem hle2
              rw [show List.range' 0 (m + 1) = 0 :: List.range' 1 m from by
                  rw [List.range'_succ],
                rebalanceLoop_cons_capacity cid T (m + 1) b 0 _ env st hcapstep] at hloop
              simp [Prod.ext_iff] at hloop
          obtain ⟨tr0, htr0, hstep2⟩ :=
            rebalanceStep_steady cid T env 0 st1 hsteady hcap
          have hloop2 : rebalanceLoop cid T (m + 1) b env (List.range (m + 1)) st1
              = (tr0, st1, false, none) := by
            rw [show List.range (m + 1) = 0 :: List.range' 1 m from by
              rw [List.range_eq_range', List.range'_succ]]
            exact rebalanceLoop_cons_ok cid T (m + 1) b 0 _ env st1 st1 tr0 hstep2
          rw [rebalance_eq_loopOk cid T (m + 1) b env st1 st1 tr0 hcrb hrun hloop2]
          refine ⟨rfl, rfl, ?_⟩
          intro e he
          simp only [List.mem_append] at he
          rcases he with he | he
          · unfold commitTrace at he
            split at he
            · simp only [List.mem_singleton] at he
              subst he
              rfl
            · simp at he
          · simp only [List.mem_cons] at he
            rcases he with he | he
            · subst he
              rfl
            · simp only [List.mem_append, List.mem_singleton] at he
              rcases he with he | he
              · rcases htr0 with h0 | h0 <;> rw [h0] at he
                · simp at he
                · simp only [List.mem_singleton] at he
                  subst he
                  rfl
              · subst he
                rfl
  · have hr2 : st.running = false := by
      simpa using hr
    rw [rebalance_eq_notRunning cid T max b env st hcra hr2] at h1
    simp [Prod.ext_iff] at h1

/-- Witness for C8: after member `"a"` of `P = ["a","b"]` successfully
claims its assignment `[p0]` out of `T = [p0, p1]`, a second rebalance
with the same environment changes nothing, raises nothing and performs no
ownership mutation. -/
theorem rebalance_idempotent_witness :
    (rebalance ['a'] [xp 0, xp 1] 5 2000 exEnv2 ⟨true, some [xp 0], [xp 0]⟩).2.1
        = ⟨true, some [xp 0], [xp 0]⟩
    ∧ (rebalance ['a'] [xp 0, xp 1] 5 2000 exEnv2 ⟨true, some [xp 0], [xp 0]⟩).2.2
        = none
    ∧ (∀ e, e ∈ (rebalance ['a'] [xp 0, xp 1] 5 2000 exEnv2
        ⟨true, some [xp 0], [xp 0]⟩).1 → mutatesOwnership e = false) :=
  rebalance_idempotent ['a'] [xp 0, xp 1] 5 2000 exEnv2 ⟨true, none, []⟩
    [Event.lockAcq, Event.addOwned (xp 0), Event.setupConsumer [xp 0],
      Event.lockRel]
    ⟨true, some [xp 0], [xp 0]⟩ rfl (by decide) rfl

/-- A coordinator environment in which `commit_offsets` raises:
participants `["a"]`, no collisions, commit fails, owned session. -/
def exEnvCommitFail : RbEnv := ⟨[['a']], fun _ _ => false, true, true⟩

/-- C7 counterexample: with an inner consumer present and a failing
offset commit, `_rebalance` raises immediately: the trace is just the
commit attempt, the rebalancing mutex is never acquired and the retry
loop never runs — contradicting the claim that a commit failure does not
abort the rebalance. -/
theorem rebalance_commit_failure_cx :
    rebalance ['a'] [xp 0] 5 2000 exEnvCommitFail ⟨true, some [xp 0], [xp 0]⟩
      = ([Event.commit], ⟨true, some [xp 0], [xp 0]⟩, some RbErr.commitError)
    ∧ Event.lockAcq ∉ (rebalance ['a'] [xp 0] 5 2000 exEnvCommitFail
        ⟨true, some [xp 0], [xp 0]⟩).1 := by
  decide

/-- C7 (amended): when `_rebalance` begins while an inner consumer
exists, its first action is the offset commit; if that commit raises, the
exception propagates at once and aborts the rebalance — the mutex is
never acquired and the retry loop does not run. -/
theorem rebalance_commit_failure_aborts (cid : PyStr) (T : List Partition)
    (max b : Nat) (env : RbEnv) (st : RbState) (ps : List Partition)
    (hcons : st.consumer = some ps) (hcf : env.commitRaises = true) :
    rebalance cid T max b env st
      = ([Event.commit], st, some RbErr.commitError) := by
  have hsome : st.consumer.isSome = true := by
    rw [hcons]
    rfl
  exact rebalance_eq_commitFail cid T max b env st hsome hcf

/-- Witness for C7's amended theorem at a concrete state. -/
theorem rebalance_commit_failure_aborts_witness :
    rebalance ['b'] [xp 1] 3 100 exEnvCommitFail ⟨true, some [], []⟩
      = ([Event.commit], ⟨true, some [], []⟩, some RbErr.commitError) :=
  rebalance_commit_failure_aborts ['b'] [xp 1] 3 100 exEnvCommitFail
    ⟨true, some [], []⟩ [] rfl rfl

/-!
A model of `start()` / `stop()` error handling, of
`_raise_worker_exceptions` with the façade entry points, and of the
`partitions` / `held_offsets` properties.
-/

/-- The steps `start()` performs in order, plus the `stop` call its
exception handler makes. -/
inductive StartEvent
  | setupZk
  | ensurePath
  | addSelfReg
  | setRunning
  | setWatches
  | rebalanceCall
  | spawnChecker
  | stopCall
deriving DecidableEq, Repr

/-- Which of `start`'s steps raise, and whether a zookeeper client was
injected at construction (`self._zookeeper is not None`, which skips
`_setup_zookeeper`). -/
structure StartEnv where
  hasInjectedZk : Bool
  setupZkFails : Bool
  ensurePathFails : Bool
  addSelfFails : Bool
  setWatchesFails : Bool
  rebalanceFails : Bool
  spawnCheckerFails : Bool
deriving DecidableEq, Repr

/-- The `try` body of `start`: connect (unless injected), ensure the
owners path, register self, set `_running = True`, install watches, run
the initial rebalance, spawn the checker — stopping at the first step
that raises.  Returns (events attempted, `_running`, the exception
escaping the body). -/
def startBody (env : StartEnv) : List StartEvent × Bool × Option StartEvent :=
  let zkTr : List StartEvent :=
    if env.hasInjectedZk then [] else [StartEvent.setupZk]
  if !env.hasInjectedZk && env.setupZkFails then
    (zkTr, false, some StartEvent.setupZk)
  else if env.ensurePathFails then
    (zkTr ++ [StartEvent.ensurePath], false, some StartEvent.ensurePath)
  else if env.addSelfFails then
    (zkTr ++ [StartEvent.ensurePath, StartEvent.addSelfReg], false,
     some StartEvent.addSelfReg)
  else if env.setWatchesFails then
    (zkTr ++ [StartEvent.ensurePath, StartEvent.addSelfReg,
       StartEvent.setRunning, StartEvent.setWatches], true,
     some StartEvent.setWatches)
  else if env.rebalanceFails then
    (zkTr ++ [StartEvent.ensurePath, StartEvent.addSelfReg,
       StartEvent.setRunning, StartEvent.setWatches, StartEvent.rebalanceCall],
     true, some StartEvent.rebalanceCall)
  else if env.spawnCheckerFails then
    (zkTr ++ [StartEvent.ensurePath, StartEvent.addSelfReg,
       StartEvent.setRunning, StartEvent.setWatches, StartEvent.rebalanceCall,
       StartEvent.spawnChecker], true, some StartEvent.spawnChecker)
  else
    (zkTr ++ [StartEvent.ensurePath, StartEvent.addSelfReg,
       StartEvent.setRunning, StartEvent.setWatches, StartEvent.rebalanceCall,
       StartEvent.spawnChecker], true, none)

/-- `start()`: the body runs under `try`; `except Exception:` logs
"Stopping consumer in response to error" and calls `self.stop()` — the
handler contains no `raise`, so the exception never reaches the caller.
`stop` leaves `_running = False`. -/
def start (env : StartEnv) : List StartEvent × Bool × Option StartEvent :=
  match startBody env with
  | (tr, _, some _) => (tr ++ [StartEvent.stopCall], false, none)
  | ok => ok

/-- A start environment whose self-registration step raises. -/
def exStartEnvFail : StartEnv := ⟨true, false, false, true, false, false, false⟩

/-- C5 counterexample: with a failing self-registration, `start` calls
`stop` but returns with no exception — the failure is swallowed, not
propagated to the caller as the claim states. -/
theorem start_swallows_exception_cx :
    exStartEnvFail.addSelfFails = true
    ∧ StartEvent.stopCall ∈ (start exStartEnvFail).1
    ∧ (start exStartEnvFail).2.2 = none := by
  decide

/-- C5 (amended): for every failure during `start` — coordinator session
setup, path creation, self-registration, watch installation, the initial
rebalance, or checker spawn — `start` calls `stop` and then suppresses
the exception: it returns normally and nothing propagates to the caller. -/
theorem start_failure_stops_without_propagating (env : StartEnv)
    (s : StartEvent) (h : (startBody env).2.2 = some s) :
    start env = ((startBody env).1 ++ [StartEvent.stopCall], false, none) := by
  unfold start
  rcases hb : startBody env with ⟨tr, r, e⟩
  rw [hb] at h
  cases e with
  | some s2 => rfl
  | none => exact absurd h (by simp)

/-- Witness for C5's amended theorem: the failing-registration
environment ends in a stop call and a normal return. -/
theorem start_failure_stops_without_propagating_witness :
    start exStartEnvFail
      = ((startBody exStartEnvFail).1 ++ [StartEvent.stopCall], false, none) :=
  start_failure_stops_without_propagating exStartEnvFail StartEvent.addSelfReg
    (by decide)

/-- The state `_raise_worker_exceptions` reads and writes: the stored
`sys.exc_info()` of a background worker (an error id here) and the
`_worker_trace_logged` flag. -/
structure WorkerState where
  worker_exception : Option Nat
  worker_trace_logged : Bool
deriving DecidableEq, Repr

/-- `_raise_worker_exceptions`: if a worker exception is stored, log its
traceback once (guarded by `_worker_trace_logged`) and raise it.  The
stored exception is never cleared.  Returns (raised error, whether the
traceback was logged by this call, new state). -/
def raise_worker_exceptions (st : WorkerState) :
    Option Nat × Bool × WorkerState :=
  match st.worker_exception with
  | none => (none, false, st)
  | some e =>
    if st.worker_trace_logged then (some e, false, st)
    else (some e, true, { st with worker_trace_logged := true })

/-- The `commit_offsets` façade entry point: it first surfaces any stored
worker exception, then delegates to the inner consumer (elided). -/
def commit_offsets (st : WorkerState) : Option Nat × WorkerState :=
  let r := raise_worker_exceptions st
  (r.1, r.2.2)

/-- C6 counterexample: a stored worker error is raised by the first
public call and raised *again* by the next one — `_worker_exception` is
never cleared, so the error is not raised exactly once. -/
theorem worker_error_raised_twice_cx :
    (commit_offsets ⟨some 7, false⟩).1 = some 7
    ∧ (commit_offsets (commit_offsets ⟨some 7, false⟩).2).1 = some 7 := by
  decide

/-- C6 (amended): a stored background-worker error is raised on *every*
public entry-point call while it remains stored — the store is never
cleared by raising; only the traceback logging happens exactly once per
stored error (`_worker_trace_logged` guards the log, not the raise). -/
theorem worker_error_raised_every_call (st : WorkerState) (e : Nat)
    (h : st.worker_exception = some e) :
    (commit_offsets st).1 = some e
    ∧ (commit_offsets st).2.worker_exception = some e
    ∧ (raise_worker_exceptions st).2.1 = !st.worker_trace_logged
    ∧ (raise_worker_exceptions (commit_offsets st).2).2.1 = false := by
  obtain ⟨oe, lg⟩ := st
  simp only at h
  subst h
  cases lg <;> simp [commit_offsets, raise_worker_exceptions]

/-- Witness for C6's amended theorem at a concrete state. -/
theorem worker_error_raised_every_call_witness :
    (commit_offsets ⟨some 3, true⟩).1 = some 3
    ∧ (commit_offsets ⟨some 3, true⟩).2.worker_exception = some 3
    ∧ (raise_worker_exceptions ⟨some 3, true⟩).2.1 = !true
    ∧ (raise_worker_exceptions (commit_offsets ⟨some 3, true⟩).2).2.1 = false :=
  worker_error_raised_every_call ⟨some 3, true⟩ 3 rfl

/-- One owned partition of the inner consumer: the partition object and
its last consumed offset. -/
structure OwnedPartition where
  partition : Partition
  last_offset_consumed : Int
deriving DecidableEq, Repr

/-- Modelled from the spec: the inner `SimpleConsumer` interface the
façade reads (`simpleconsumer.py` is not part of the analysed source).
It exposes an enumerable `_partitions_by_id` from partition id to
(partition, last_offset_consumed). -/
structure SimpleConsumer where
  partitions_by_id : List (Nat × OwnedPartition)
deriving DecidableEq, Repr

/-- Modelled from the spec: `SimpleConsumer.partitions`, the inner
consumer's partition map — a dict value, hence non-null whenever a
consumer instance is held (possibly an empty dict). -/
def SimpleConsumer.partitionsMap (c : SimpleConsumer) : List (Nat × Partition) :=
  c.partitions_by_id.map fun x => (x.1, x.2.partition)

/-- The façade state the two public properties read. -/
structure FacadeState where
  consumer : Option SimpleConsumer
deriving DecidableEq, Repr

/-- The `partitions` property:
`self._consumer.partitions if self._consumer else None`. -/
def partitionsProperty (st : FacadeState) : Option (List (Nat × Partition)) :=
  match st.consumer with
  | none => none
  | some c => some c.partitionsMap

/-- The `held_offsets` property: `None` when there is no inner consumer,
else the map from partition id to last consumed offset built from
`_partitions_by_id`. -/
def held_offsets (st : FacadeState) : Option (List (Nat × Int)) :=
  match st.consumer with
  | none => none
  | some c => some (c.partitions_by_id.map fun x => (x.1, x.2.last_offset_consumed))

/-- C10: whenever no inner consumer is held, both the `partitions`
property and `held_offsets` return `None` (not an empty collection), and
`partitions` is non-null exactly when an inner consumer instance is
held. -/
theorem partitions_null_iff_no_consumer (st : FacadeState) :
    (st.consumer = none → partitionsProperty st = none ∧ held_offsets st = none)
    ∧ (partitionsProperty st ≠ none ↔ st.consumer ≠ none) := by
  rcases hc : st.consumer with _ | c <;>
    simp [partitionsProperty, held_offsets, hc]

/-- Witness for C10: both properties are `None` with no consumer, and
`partitions` is non-null for a held (even empty) consumer. -/
theorem partitions_null_iff_no_consumer_witness :
    (partitionsProperty ⟨none⟩ = none ∧ held_offsets ⟨none⟩ = none)
    ∧ (partitionsProperty ⟨some ⟨[]⟩⟩ ≠ none ↔
        (FacadeState.mk (some ⟨[]⟩)).consumer ≠ none) :=
  ⟨(partitions_null_iff_no_consumer ⟨none⟩).1 rfl,
   (partitions_null_iff_no_consumer ⟨some ⟨[]⟩⟩).2⟩

end PyKafka
